import Mathlib

/-!
Verification of the MagiCAM pose-receiver core (`src/maya/maya_receiver.py`).

This file gives a shallow embedding of the receiver's quaternion math,
validation, batching, interpolation, calibration engine and session state,
and proves the specification claims about them.  Python floats are modelled
as exact real numbers; the translation follows the source line by line.
-/

namespace MagiCAM

noncomputable section

open Real Classical

/-- Quaternion as an ordered tuple `(qw, qx, qy, qz)`, matching the tuples
used throughout `maya_receiver.py`. -/
structure Quat where
  w : ℝ
  x : ℝ
  y : ℝ
  z : ℝ

/-- Componentwise quaternion dot product, as written inline in
`_quat_slerp`, `_interp_loop` and `_server_loop`. -/
def qdot (a b : Quat) : ℝ :=
  a.w * b.w + a.x * b.x + a.y * b.y + a.z * b.z

/-- Componentwise negation, `(-q[0], -q[1], -q[2], -q[3])`. -/
def qneg (a : Quat) : Quat :=
  ⟨-a.w, -a.x, -a.y, -a.z⟩

/-- Componentwise sum of two quaternions. -/
def qadd (a b : Quat) : Quat :=
  ⟨a.w + b.w, a.x + b.x, a.y + b.y, a.z + b.z⟩

/-- Scaling a quaternion by a real coefficient. -/
def qsmul (t : ℝ) (a : Quat) : Quat :=
  ⟨t * a.w, t * a.x, t * a.y, t * a.z⟩

/-- Sum of squared components, the argument of `math.sqrt` in the source's
`sum([c*c for c in q])` expressions. -/
def sumSq (a : Quat) : ℝ :=
  a.w * a.w + a.x * a.x + a.y * a.y + a.z * a.z

/-- Quaternion norm `math.sqrt(sum([c*c for c in q]))`. -/
def qlen (a : Quat) : ℝ :=
  Real.sqrt (sumSq a)

/-- Unguarded normalization `tuple([c / norm for c in res])`, as used inside
the linear branch of `_quat_slerp` (the source has no zero guard there). -/
def qdivNorm (a : Quat) : Quat :=
  ⟨a.w / qlen a, a.x / qlen a, a.y / qlen a, a.z / qlen a⟩

/-- Guarded normalization: `if nq_len == 0: (1,0,0,0) else divide`.  This is
the inline pattern at `_interp_loop` lines 363-368 and `_server_loop` lines
617-621 of `maya_receiver.py`. -/
def qnormalize (a : Quat) : Quat :=
  if qlen a = 0 then ⟨1, 0, 0, 0⟩ else qdivNorm a

/-- `_quat_slerp(a, b, t)`: hemisphere correction, a linear fallback above
the `0.9995` dot threshold, and the closed-form spherical formula
otherwise. -/
def quatSlerp (a b : Quat) (t : ℝ) : Quat :=
  let d0 := qdot a b
  let b2 := if d0 < 0 then qneg b else b
  let dotp := if d0 < 0 then -d0 else d0
  if dotp > 0.9995 then
    qdivNorm ⟨a.w + t * (b2.w - a.w), a.x + t * (b2.x - a.x),
              a.y + t * (b2.y - a.y), a.z + t * (b2.z - a.z)⟩
  else
    let theta0 := Real.arccos dotp
    let theta := theta0 * t
    let s0 := Real.cos theta - dotp * Real.sin theta / Real.sin theta0
    let s1 := Real.sin theta / Real.sin theta0
    ⟨s0 * a.w + s1 * b2.w, s0 * a.x + s1 * b2.x,
     s0 * a.y + s1 * b2.y, s0 * a.z + s1 * b2.z⟩

/-- Python list indexing `m[i]` on the row-major 16-float pose lists.
Indices used by the source are always in range; out-of-range reads default
to `0`. -/
def mget (m : List ℝ) (i : ℕ) : ℝ :=
  m.getD i 0

/-- `_mat_to_quat(m)`: Shepperd-style extraction with four branches, on the
row-major 16-entry list `m`. -/
def matToQuat (m : List ℝ) : Quat :=
  let m00 := mget m 0
  let m01 := mget m 1
  let m02 := mget m 2
  let m10 := mget m 4
  let m11 := mget m 5
  let m12 := mget m 6
  let m20 := mget m 8
  let m21 := mget m 9
  let m22 := mget m 10
  let tr := m00 + m11 + m22
  if tr > 0 then
    let S := Real.sqrt (tr + 1) * 2
    ⟨0.25 * S, (m21 - m12) / S, (m02 - m20) / S, (m10 - m01) / S⟩
  else if m00 > m11 ∧ m00 > m22 then
    let S := Real.sqrt (1 + m00 - m11 - m22) * 2
    ⟨(m21 - m12) / S, 0.25 * S, (m01 + m10) / S, (m02 + m20) / S⟩
  else if m11 > m22 then
    let S := Real.sqrt (1 + m11 - m00 - m22) * 2
    ⟨(m02 - m20) / S, (m01 + m10) / S, 0.25 * S, (m12 + m21) / S⟩
  else
    let S := Real.sqrt (1 + m22 - m00 - m11) * 2
    ⟨(m10 - m01) / S, (m02 + m20) / S, (m12 + m21) / S, 0.25 * S⟩

/-- `_quat_to_mat(q)`: row-major 4x4 built from a quaternion. -/
def quatToMat (q : Quat) : List ℝ :=
  let xx := q.x * q.x
  let yy := q.y * q.y
  let zz := q.z * q.z
  let xy := q.x * q.y
  let xz := q.x * q.z
  let yz := q.y * q.z
  let wx := q.w * q.x
  let wy := q.w * q.y
  let wz := q.w * q.z
  [1 - 2 * (yy + zz), 2 * (xy - wz), 2 * (xz + wy), 0,
   2 * (xy + wz), 1 - 2 * (xx + zz), 2 * (yz - wx), 0,
   2 * (xz - wy), 2 * (yz + wx), 1 - 2 * (xx + yy), 0,
   0, 0, 0, 1]

/-- State of one `AlphaBetaFilter` instance: gains, position estimate,
velocity estimate, and last-update timestamp (`None` before the first
update and after `reset`). -/
structure ABState where
  alpha : ℝ
  beta : ℝ
  x : ℝ
  v : ℝ
  lastT : Option ℝ

/-- `AlphaBetaFilter.__init__(alpha, beta)`. -/
def ABState.mkFilter (alpha beta : ℝ) : ABState :=
  ⟨alpha, beta, 0, 0, none⟩

/-- `AlphaBetaFilter.reset(value)`; `value=None` resets the position to 0. -/
def ABState.reset (s : ABState) (value : Option ℝ) : ABState :=
  { s with x := value.getD 0, v := 0, lastT := none }

/-- `AlphaBetaFilter.update(meas, t)`.  `now` is the effective timestamp
(the callers in `_apply_matrix_to_camera` always pass `t=now` explicitly).
Returns the filtered value together with the updated state. -/
def ABState.update (s : ABState) (meas now : ℝ) : ℝ × ABState :=
  match s.lastT with
  | none => (meas, { s with x := meas, v := 0, lastT := some now })
  | some t0 =>
    let dt := max 1e-6 (now - t0)
    let x1 := s.x + s.v * dt
    let r := meas - x1
    let x2 := x1 + s.alpha * r
    let v2 := s.v + s.beta * r / dt
    (x2, { s with x := x2, v := v2, lastT := some now })

/-- A 4x4 real matrix, the model of `maya.api.OpenMaya.MMatrix`. -/
abbrev Mat4 : Type :=
  Matrix (Fin 4) (Fin 4) ℝ

/-- `_rowlist_to_mmatrix`: build an `MMatrix` from a row-major 16-list. -/
def rowlistToMMatrix (l : List ℝ) : Mat4 :=
  Matrix.of fun i j => mget l (4 * i.val + j.val)

/-- `list(mm)`: flatten an `MMatrix` back to its row-major 16-list. -/
def mmatrixToList (M : Mat4) : List ℝ :=
  [M 0 0, M 0 1, M 0 2, M 0 3,
   M 1 0, M 1 1, M 1 2, M 1 3,
   M 2 0, M 2 1, M 2 2, M 2 3,
   M 3 0, M 3 1, M 3 2, M 3 3]

/-- Model of `MMatrix.inverse()` (external Maya API, not repository code):
returns the inverse for an invertible matrix and fails (raises) on a
singular one, as the spec's calibration section assumes. -/
def mmInverse (M : Mat4) : Option Mat4 :=
  if IsUnit M.det then some M⁻¹ else none

/-- One JSON value inside a parsed `matrix` array: a finite number, one of
the non-finite floats `nan`/`inf`/`-inf` (JSON `NaN`/`Infinity`), or a
non-numeric value (string, bool, null, ...). -/
inductive JVal where
  | num (v : ℝ)
  | nan
  | infPos
  | infNeg
  | nonNumber

/-- `isinstance(v,(int,float)) and not isinf(v) and not isnan(v)`. -/
def JVal.isFiniteNum : JVal → Bool
  | .num _ => true
  | _ => false

/-- The real value of a finite entry; junk `0` otherwise (only read after
validation has established every entry is finite). -/
def JVal.toReal : JVal → ℝ
  | .num v => v
  | _ => 0

/-- `MAX_TRANSLATION = 10000.0` (module-level constant). -/
def MAX_TRANSLATION : ℝ :=
  10000

/-- `_validate_matrix(m)`: non-empty, exactly 16 entries, every entry a
finite number, and translation norm `sqrt(tx*tx+ty*ty+tz*tz)` not above
`MAX_TRANSLATION`. -/
def validateMatrix (m : List JVal) : Prop :=
  m ≠ [] ∧ m.length = 16 ∧ (∀ v ∈ m, v.isFiniteNum = true) ∧
    Real.sqrt ((m.map JVal.toReal).getD 3 0 * (m.map JVal.toReal).getD 3 0 +
               (m.map JVal.toReal).getD 7 0 * (m.map JVal.toReal).getD 7 0 +
               (m.map JVal.toReal).getD 11 0 * (m.map JVal.toReal).getD 11 0)
      ≤ MAX_TRANSLATION

/-- A parsed UDP payload: `payload.get('type','pose')`, the optional
`matrix` array, and the optional `cmd` string. -/
structure Payload where
  ptype : String
  matrix : Option (List JVal)
  cmd : Option String

/-- The receiver's module-level mutable state (the globals of
`maya_receiver.py` that the modelled operations read or write).  Socket,
thread and file handles are outside the embedding. -/
structure ServerState where
  serverRunning : Bool
  logEnabled : Bool
  interpRunning : Bool
  targetMatrix : Option (List ℝ)
  lastMatrix : Option (List ℝ)
  lastReceiveTime : ℝ
  receivedFrames : ℕ
  droppedFrames : ℕ
  lastQuat : Option Quat
  lastPos : Option (ℝ × ℝ × ℝ)
  posFilters : ABState × ABState × ABState
  calibMatrix : Option (List ℝ)
  pendingCalibDesired : Option (List ℝ)
  cameraPose : List ℝ
  smoothMode : String
  smoothAlpha : ℝ
  posAlpha : ℝ
  rotAlpha : ℝ
  maxRotationDeltaDeg : ℝ
  minUpdateInterval : ℝ

/-- Outcome of the calibration operation as its caller observes it:
normal return, normal return after the outer `except` handler printed the
error, or an exception propagating out (never produced by the code — the
whole body of `_calibrate_from_incoming` is wrapped in `try/except`). -/
inductive CalibOutcome where
  | ok
  | caughtError
  | raised
deriving DecidableEq

/-- Result of `_calibrate_from_incoming`: the mutated globals plus the
caller-visible outcome. -/
structure CalibResult where
  state : ServerState
  outcome : CalibOutcome

/-- `_calibrate_from_incoming(incoming)`: consume the pending desired pose
(falling back to the live camera pose), invert the incoming sample and set
`CALIB_MATRIX = desired * inverse(incoming)`.  The `except` fallback
(`MTransformationMatrix(...).inverse()`) inverts the same matrix, so a
singular sample fails both attempts; the outer handler prints the error
and returns normally, leaving `CALIB_MATRIX` as it was. -/
def calibrateFromIncoming (st : ServerState) (incoming : List ℝ) : CalibResult :=
  let desired := st.pendingCalibDesired.getD st.cameraPose
  let st1 := { st with pendingCalibDesired := none }
  match mmInverse (rowlistToMMatrix incoming) with
  | some inv =>
    { state := { st1 with
        calibMatrix := some (mmatrixToList (rowlistToMMatrix desired * inv)) },
      outcome := .ok }
  | none => { state := st1, outcome := .caughtError }

/-- `calibrate()`: store the current camera transform as the pending
desired calibration target; the live `CALIB_MATRIX` is untouched. -/
def calibrate (st : ServerState) : ServerState :=
  { st with pendingCalibDesired := some st.cameraPose }

/-- `reset_calibration()`. -/
def resetCalibration (st : ServerState) : ServerState :=
  { st with calibMatrix := none }

/-- `CALIB_MATRIX` composition `mm_calib * mm_sm` applied to an output
pose list, or the pose unchanged when no calibration is set. -/
def applyCalib (st : ServerState) (final : List ℝ) : List ℝ :=
  match st.calibMatrix with
  | some c => mmatrixToList (rowlistToMMatrix c * rowlistToMMatrix final)
  | none => final

/-- Overwrite the translation slots `final[3], final[7], final[11]` of a
row-major pose list. -/
def setTrans (m : List ℝ) (t : ℝ × ℝ × ℝ) : List ℝ :=
  ((m.set 3 t.1).set 7 t.2.1).set 11 t.2.2

/-- `_apply_matrix_to_camera(mat_list)`: the state effects of the five
smoothing strategies.  Emission to the Maya camera (`cmds.evalDeferred`)
is external output and not part of the state. -/
def applyMatrixToCamera (m : List ℝ) (now : ℝ) (st : ServerState) : ServerState :=
  if st.smoothMode = "none" then
    st
  else if st.smoothMode = "matrix_interp" then
    { st with targetMatrix := some m, interpRunning := true }
  else if st.smoothMode = "alpha_beta" ∨ st.smoothMode = "kalman" then
    let (_, f0) := st.posFilters.1.update (mget m 3) now
    let (_, f1) := st.posFilters.2.1.update (mget m 7) now
    let (_, f2) := st.posFilters.2.2.update (mget m 11) now
    let qMeas := matToQuat m
    let qF := match st.lastQuat with
      | none => qMeas
      | some lq => quatSlerp lq qMeas st.smoothAlpha
    { st with posFilters := (f0, f1, f2), lastQuat := some qF }
  else
    let a := st.smoothAlpha
    match st.lastMatrix with
    | none => { st with lastMatrix := some m }
    | some lm =>
      let smoothed := (List.range 16).map fun i => mget lm i * (1 - a) + mget m i * a
      { st with lastMatrix := some smoothed }

/-- `_process_packet(data, from_batch)` on an already-parsed payload; the
whole handler is wrapped in `try/except`, so this function is total and
the only effects are the state changes modelled here. -/
def processPacket (now : ℝ) (fromBatch : Bool) (p : Payload) (st : ServerState) :
    ServerState :=
  if p.ptype = "pose" then
    match p.matrix with
    | none => st
    | some l =>
      if l.length ≠ 16 then st
      else if ¬ validateMatrix l then
        { st with droppedFrames := st.droppedFrames + 1 }
      else if fromBatch = false ∧ now - st.lastReceiveTime < st.minUpdateInterval then
        { st with droppedFrames := st.droppedFrames + 1 }
      else
        applyMatrixToCamera (l.map JVal.toReal) now
          { st with lastReceiveTime := now, receivedFrames := st.receivedFrames + 1 }
  else if p.ptype = "calib" then
    match p.matrix with
    | none => st
    | some l =>
      if l.length ≠ 16 then st
      else if ¬ validateMatrix l then st
      else (calibrateFromIncoming st (l.map JVal.toReal)).state
  else if p.ptype = "cmd" then
    if p.cmd = some "reset_calib" then resetCalibration st else st
  else
    st

/-- `stop_server()`: stop both loops, clear the current target, logging and
per-session filter state, and zero the statistics counters.  `LAST_MATRIX`
is kept (the source notes: keep it so the camera position persists), and
`CALIB_MATRIX` / the pending calibration target are not touched. -/
def stopServer (st : ServerState) : ServerState :=
  if st.serverRunning = false then st
  else
    { st with
      serverRunning := false
      interpRunning := false
      logEnabled := false
      targetMatrix := none
      lastReceiveTime := 0
      lastQuat := none
      lastPos := none
      receivedFrames := 0
      droppedFrames := 0 }

/-- The angle `2.0 * acos(abs(max(-1, min(1, dot))))` between two
quaternions, as computed in `_interp_loop`. -/
def quatAngle (a b : Quat) : ℝ :=
  2 * Real.arccos |max (-1) (min 1 (qdot a b))|

/-- `math.radians(MAX_ROTATION_DELTA_DEG)`. -/
def maxRadOf (maxRotDeg : ℝ) : ℝ :=
  maxRotDeg * (Real.pi / 180)

/-- The effective slerp fraction of `_interp_loop`: when the angular delta
exceeds both `1e-6` and the configured cap, `min(a_rot, max_rad/angle)`;
otherwise the configured `ROT_ALPHA` itself. -/
def effRotT (lastQ tgtQ : Quat) (aRot maxRotDeg : ℝ) : ℝ :=
  let angle := quatAngle lastQ tgtQ
  let maxRad := maxRadOf maxRotDeg
  if angle > 1e-6 ∧ angle > maxRad then min aRot (maxRad / angle) else aRot

/-- One body iteration of `_interp_loop` with target `tgt` available:
seed `LAST_MATRIX` on the first tick, otherwise lerp the position by
`POS_ALPHA`, slerp the rotation by the clamped effective fraction,
renormalize, rebuild the pose, compose calibration and store it. -/
def interpStep (st : ServerState) (tgt : List ℝ) : ServerState :=
  match st.lastMatrix with
  | none => { st with lastMatrix := some tgt }
  | some lm =>
    let tgtQuat := matToQuat tgt
    let lastQuat := matToQuat lm
    let aPos := st.posAlpha
    let newPos := (mget lm 3 * (1 - aPos) + mget tgt 3 * aPos,
                   mget lm 7 * (1 - aPos) + mget tgt 7 * aPos,
                   mget lm 11 * (1 - aPos) + mget tgt 11 * aPos)
    let newQuat := qnormalize
      (quatSlerp lastQuat tgtQuat (effRotT lastQuat tgtQuat st.rotAlpha st.maxRotationDeltaDeg))
    let final := setTrans (quatToMat newQuat) newPos
    { st with lastMatrix := some (applyCalib st final) }

/-- The quaternion part of the batch-average fold in `_server_loop`:
the first sample's quaternion is the reference; every later quaternion is
sign-flipped when its dot with the reference is negative, then added. -/
def batchQuatSum (qs : List Quat) : Quat :=
  match qs with
  | [] => ⟨0, 0, 0, 0⟩
  | q0 :: rest =>
    rest.foldl (fun acc q => qadd acc (if qdot q q0 < 0 then qneg q else q)) q0

/-- The translation part of the batch-average fold in `_server_loop`. -/
def batchPosSum (mats : List (List ℝ)) : ℝ × ℝ × ℝ :=
  mats.foldl (fun acc m => (acc.1 + mget m 3, acc.2.1 + mget m 7, acc.2.2 + mget m 11))
    (0, 0, 0)

/-- The batch-representative pose `avg_mat` built by `_server_loop` from a
non-empty batch of validated matrices: mean translation, sign-corrected
normalized mean quaternion, rebuilt as a row-major pose. -/
def serverBatchAvg (mats : List (List ℝ)) : List ℝ :=
  let n : ℝ := mats.length
  let ps := batchPosSum mats
  let avgQuat := qnormalize (batchQuatSum (mats.map matToQuat))
  setTrans (quatToMat avgQuat) (ps.1 / n, ps.2.1 / n, ps.2.2 / n)

/-- Row-major identity pose, the transform of a camera at the origin. -/
def idMatList : List ℝ :=
  [1, 0, 0, 0, 0, 1, 0, 0, 0, 0, 1, 0, 0, 0, 0, 1]

/-- The all-zero 16-list, a degenerate (singular) pose sample. -/
def zeroMatList : List ℝ :=
  List.replicate 16 0

/-- The module-level defaults of `maya_receiver.py`: a fresh module with no
session running. -/
def initState : ServerState where
  serverRunning := false
  logEnabled := false
  interpRunning := false
  targetMatrix := none
  lastMatrix := none
  lastReceiveTime := 0
  receivedFrames := 0
  droppedFrames := 0
  lastQuat := none
  lastPos := none
  posFilters := (ABState.mkFilter 0.85 0.005, ABState.mkFilter 0.85 0.005,
                 ABState.mkFilter 0.85 0.005)
  calibMatrix := none
  pendingCalibDesired := none
  cameraPose := idMatList
  smoothMode := "none"
  smoothAlpha := 0.25
  posAlpha := 0.8
  rotAlpha := 0.8
  maxRotationDeltaDeg := 180
  minUpdateInterval := 1 / 60

/-- A running session holding both a calibration offset and a pending
calibration target. -/
def runningCalibratedState : ServerState :=
  { initState with
    serverRunning := true
    calibMatrix := some idMatList
    pendingCalibDesired := some idMatList }

/-! ## Theorems -/

/-- C1 (counterexample): on a running session with a calibration offset
set, `stop_server` does NOT clear the calibration offset — `CALIB_MATRIX`
is still set after the stop, contradicting the claim that stop clears it. -/
theorem stopServer_keeps_calib_cex :
    runningCalibratedState.serverRunning = true ∧
    (stopServer runningCalibratedState).calibMatrix = some idMatList := by
  constructor
  · rfl
  · simp [stopServer, runningCalibratedState, initState]

/-- C1 (amended): for every running session, `stop_server` clears the
current target pose, resets the received and dropped counters to zero,
preserves the last known output pose `LAST_MATRIX`, and also preserves
(does not clear) the calibration offset `CALIB_MATRIX`. -/
theorem stopServer_session_reset (st : ServerState) (h : st.serverRunning = true) :
    (stopServer st).targetMatrix = none ∧
    (stopServer st).receivedFrames = 0 ∧
    (stopServer st).droppedFrames = 0 ∧
    (stopServer st).lastMatrix = st.lastMatrix ∧
    (stopServer st).calibMatrix = st.calibMatrix := by
  simp [stopServer, h]

/-- C1 (witness): the amended stop behaviour at a concrete running
session. -/
theorem stopServer_session_reset_witness :
    runningCalibratedState.serverRunning = true ∧
    ((stopServer runningCalibratedState).targetMatrix = none ∧
     (stopServer runningCalibratedState).receivedFrames = 0 ∧
     (stopServer runningCalibratedState).droppedFrames = 0 ∧
     (stopServer runningCalibratedState).lastMatrix = runningCalibratedState.lastMatrix ∧
     (stopServer runningCalibratedState).calibMatrix = runningCalibratedState.calibMatrix) :=
  ⟨rfl, stopServer_session_reset runningCalibratedState rfl⟩

/-- C10: the first update of an `AlphaBetaFilter` after construction or
after `reset` returns the measurement exactly and leaves the velocity at
zero; a subsequent update applies the predict/correct step with the time
step clamped below by `1e-6`, so the velocity correction never divides by
zero. -/
theorem alphaBeta_first_and_clamped (a b meas now : ℝ) (vo : Option ℝ) (s : ABState) :
    (((ABState.mkFilter a b).update meas now).1 = meas ∧
     ((ABState.mkFilter a b).update meas now).2.v = 0) ∧
    (((s.reset vo).update meas now).1 = meas ∧
     ((s.reset vo).update meas now).2.v = 0) ∧
    (∀ t0, s.lastT = some t0 →
      1e-6 ≤ max 1e-6 (now - t0) ∧ max 1e-6 (now - t0) ≠ 0 ∧
      (s.update meas now).1 =
        s.x + s.v * max 1e-6 (now - t0) +
          s.alpha * (meas - (s.x + s.v * max 1e-6 (now - t0))) ∧
      (s.update meas now).2.v =
        s.v + s.beta * (meas - (s.x + s.v * max 1e-6 (now - t0))) /
          max 1e-6 (now - t0)) := by
  refine ⟨⟨?_, ?_⟩, ⟨?_, ?_⟩, ?_⟩
  · simp [ABState.update, ABState.mkFilter]
  · simp [ABState.update, ABState.mkFilter]
  · simp [ABState.update, ABState.reset]
  · simp [ABState.update, ABState.reset]
  · intro t0 h
    have hpos : (0 : ℝ) < max 1e-6 (now - t0) :=
      lt_of_lt_of_le (by norm_num) (le_max_left _ _)
    refine ⟨le_max_left _ _, ne_of_gt hpos, ?_, ?_⟩
    · simp [ABState.update, h]
    · simp [ABState.update, h]

/-- C10 (witness): a filter freshly reset returns the measurement, and a
primed filter uses the clamped `dt`. -/
theorem alphaBeta_first_and_clamped_witness :
    ((((ABState.mkFilter 0.5 0.01).update 2 3).1 = 2 ∧
      ((ABState.mkFilter 0.5 0.01).update 2 3).2.v = 0) ∧
     (((ABState.mk 0.5 0.01 7 7 (some 7)).reset (some 0)).update 2 3).1 = 2 ∧
      (((ABState.mk 0.5 0.01 7 7 (some 7)).reset (some 0)).update 2 3).2.v = 0) ∧
    ((ABState.mk 0.5 0.01 7 7 (some 7)).lastT = some 7 ∧
     1e-6 ≤ max 1e-6 ((3 : ℝ) - 7)) := by
  have h := alphaBeta_first_and_clamped 0.5 0.01 2 3 (some 0)
    (ABState.mk 0.5 0.01 7 7 (some 7))
  exact ⟨⟨h.1, h.2.1⟩, rfl, (h.2.2 7 rfl).1⟩

/-- C9: `qnormalize` (the shared zero guard of `_server_loop` and
`_interp_loop`) substitutes the identity quaternion for a zero-norm input
instead of dividing by zero, and every quaternion it returns has unit
norm; in particular the batch-average quaternion and the interpolated
quaternion are always unit. -/
theorem qnormalize_unit_or_identity :
    (∀ q : Quat, qlen q = 0 → qnormalize q = ⟨1, 0, 0, 0⟩) ∧
    (∀ q : Quat, qlen (qnormalize q) = 1) ∧
    (∀ qs : List Quat, qlen (qnormalize (batchQuatSum qs)) = 1) := by
  have hzero : ∀ q : Quat, qlen q = 0 → qnormalize q = ⟨1, 0, 0, 0⟩ := by
    intro q h
    simp [qnormalize, h]
  have hunit : ∀ q : Quat, qlen (qnormalize q) = 1 := by
    intro q
    by_cases h : qlen q = 0
    · rw [hzero q h]
      show Real.sqrt (sumSq ⟨1, 0, 0, 0⟩) = 1
      norm_num [sumSq]
    · have hs : 0 ≤ sumSq q := by
        have := sq_nonneg q.w
        have := sq_nonneg q.x
        have := sq_nonneg q.y
        have := sq_nonneg q.z
        simp only [sq] at *
        unfold sumSq
        linarith
      have hpos : 0 < qlen q := lt_of_le_of_ne (Real.sqrt_nonneg _) (Ne.symm h)
      have hmul : qlen q * qlen q = sumSq q := Real.mul_self_sqrt hs
      rw [qnormalize, if_neg h]
      show Real.sqrt (sumSq (qdivNorm q)) = 1
      have hsum : sumSq (qdivNorm q) = 1 := by
        unfold sumSq qdivNorm
        have hne : qlen q * qlen q ≠ 0 := by positivity
        field_simp
        unfold sumSq at hmul
        linarith
      rw [hsum, Real.sqrt_one]
  exact ⟨hzero, hunit, fun qs => hunit (batchQuatSum qs)⟩

/-- C9 (witness): the zero quaternion (the sum of a batch with exact
cancellation, had the hemisphere fix been absent) is replaced by the
identity, which has unit norm. -/
theorem qnormalize_unit_or_identity_witness :
    qlen ⟨0, 0, 0, 0⟩ = 0 ∧ qnormalize ⟨0, 0, 0, 0⟩ = ⟨1, 0, 0, 0⟩ ∧
    qlen (qnormalize ⟨0, 0, 0, 0⟩) = 1 := by
  have h0 : qlen ⟨(0 : ℝ), 0, 0, 0⟩ = 0 := by
    show Real.sqrt (sumSq ⟨0, 0, 0, 0⟩) = 0
    norm_num [sumSq]
  exact ⟨h0, qnormalize_unit_or_identity.1 _ h0, qnormalize_unit_or_identity.2.1 _⟩

/-- C2 (counterexample): a pose payload whose `matrix` field is missing is
rejected, but the dropped counter is NOT incremented — `_process_packet`
returns from the `not m or len(m) != 16` check before reaching the
`DROPPED_FRAMES += 1` line, contradicting the claim that every rejection
increments the counter. -/
theorem processPacket_missing_matrix_cex :
    (processPacket 0 true ⟨"pose", none, none⟩ initState).droppedFrames ≠
      initState.droppedFrames + 1 := by
  simp [processPacket, initState]

/-- C2 (amended): a pose payload with a missing, empty or wrong-length
matrix is rejected without touching the state (no dropped-counter
increment); a 16-entry matrix failing numeric validation (a non-finite
entry, or translation magnitude above the bound) is rejected with exactly
the dropped counter incremented; a 16-entry matrix whose entries are all
finite with translation magnitude within the bound passes validation.  The
handler is a total function, so no exception escapes it. -/
theorem processPacket_validation (now : ℝ) (fromBatch : Bool) (st : ServerState)
    (l : List JVal) :
    (processPacket now fromBatch ⟨"pose", none, none⟩ st = st) ∧
    (l.length ≠ 16 → processPacket now fromBatch ⟨"pose", some l, none⟩ st = st) ∧
    (l.length = 16 → ¬ validateMatrix l →
      processPacket now fromBatch ⟨"pose", some l, none⟩ st =
        { st with droppedFrames := st.droppedFrames + 1 }) ∧
    (∀ v ∈ l, ¬ (v.isFiniteNum = true) → ¬ validateMatrix l) ∧
    (MAX_TRANSLATION <
        Real.sqrt ((l.map JVal.toReal).getD 3 0 * (l.map JVal.toReal).getD 3 0 +
                   (l.map JVal.toReal).getD 7 0 * (l.map JVal.toReal).getD 7 0 +
                   (l.map JVal.toReal).getD 11 0 * (l.map JVal.toReal).getD 11 0) →
      ¬ validateMatrix l) ∧
    (l.length = 16 → (∀ v ∈ l, v.isFiniteNum = true) →
      Real.sqrt ((l.map JVal.toReal).getD 3 0 * (l.map JVal.toReal).getD 3 0 +
                 (l.map JVal.toReal).getD 7 0 * (l.map JVal.toReal).getD 7 0 +
                 (l.map JVal.toReal).getD 11 0 * (l.map JVal.toReal).getD 11 0)
        ≤ MAX_TRANSLATION →
      validateMatrix l) := by
  refine ⟨?_, ?_, ?_, ?_, ?_, ?_⟩
  · simp [processPacket]
  · intro hlen
    simp [processPacket, hlen]
  · intro hlen hval
    simp [processPacket, hlen, hval]
  · intro v hv hfin hval
    exact hfin (hval.2.2.1 v hv)
  · intro hgt hval
    exact absurd hval.2.2.2 (not_le.mpr hgt)
  · intro hlen hfin hle
    refine ⟨?_, hlen, hfin, hle⟩
    intro hnil
    rw [hnil] at hlen
    simp at hlen

/-- C2 (witness): the amended behaviour at concrete inputs — a wrong-length
matrix leaves the state unchanged, a 16-entry matrix containing `NaN`
increments only the dropped counter, and the all-zero finite matrix passes
validation. -/
theorem processPacket_validation_witness :
    (processPacket 0 true ⟨"pose", some [JVal.num 1], none⟩ initState = initState) ∧
    (processPacket 0 true
        ⟨"pose", some (JVal.nan :: List.replicate 15 (JVal.num 0)), none⟩ initState =
      { initState with droppedFrames := initState.droppedFrames + 1 }) ∧
    validateMatrix (List.replicate 16 (JVal.num 0)) := by
  have h1 := (processPacket_validation 0 true initState [JVal.num 1]).2.1 (by simp)
  have hbad : ¬ validateMatrix (JVal.nan :: List.replicate 15 (JVal.num 0)) := by
    intro hval
    have := hval.2.2.1 JVal.nan (by simp)
    simp [JVal.isFiniteNum] at this
  have h2 := (processPacket_validation 0 true initState
      (JVal.nan :: List.replicate 15 (JVal.num 0))).2.2.1 (by simp) hbad
  have h3 := (processPacket_validation 0 true initState
      (List.replicate 16 (JVal.num 0))).2.2.2.2.2 (by simp)
    (by
      intro v hv
      have := List.eq_of_mem_replicate hv
      rw [this]
      rfl)
    (by
      have hz : ((List.replicate 16 (JVal.num (0 : ℝ))).map JVal.toReal) =
          List.replicate 16 (0 : ℝ) := by
        simp [JVal.toReal]
      rw [hz]
      have hg3 : (List.replicate 16 (0 : ℝ)).getD 3 0 = 0 := by rfl
      have hg7 : (List.replicate 16 (0 : ℝ)).getD 7 0 = 0 := by rfl
      have hg11 : (List.replicate 16 (0 : ℝ)).getD 11 0 = 0 := by rfl
      rw [hg3, hg7, hg11]
      norm_num [MAX_TRANSLATION])
  exact ⟨h1, h2, h3⟩

/-- Numeral `Fin 4` coordinates have the expected `Nat` values. -/
theorem fin4_vals :
    ((0 : Fin 4) : ℕ) = 0 ∧ ((1 : Fin 4) : ℕ) = 1 ∧
    ((2 : Fin 4) : ℕ) = 2 ∧ ((3 : Fin 4) : ℕ) = 3 :=
  ⟨rfl, rfl, rfl, rfl⟩

/-- Flattening a 4x4 matrix row-major and rebuilding it is the identity. -/
theorem rowlist_roundtrip (M : Mat4) : rowlistToMMatrix (mmatrixToList M) = M := by
  ext i j
  fin_cases i <;> fin_cases j <;>
    simp [rowlistToMMatrix, mmatrixToList, mget, Matrix.of_apply,
      fin4_vals.1, fin4_vals.2.1, fin4_vals.2.2.1, fin4_vals.2.2.2]

/-- The all-zero sample is the zero matrix, hence singular. -/
theorem zeroMatList_not_invertible : ¬ IsUnit (rowlistToMMatrix zeroMatList).det := by
  have hz : rowlistToMMatrix zeroMatList = 0 := by
    ext i j
    fin_cases i <;> fin_cases j <;>
      simp [rowlistToMMatrix, zeroMatList, mget, Matrix.of_apply,
        fin4_vals.1, fin4_vals.2.1, fin4_vals.2.2.1, fin4_vals.2.2.2]
  rw [hz, Matrix.det_zero (by exact ⟨0⟩)]
  simp

/-- The identity pose list is the identity matrix. -/
theorem idMatList_is_one : rowlistToMMatrix idMatList = 1 := by
  ext i j
  fin_cases i <;> fin_cases j <;>
    simp [rowlistToMMatrix, idMatList, mget, Matrix.of_apply, Matrix.one_apply,
      fin4_vals.1, fin4_vals.2.1, fin4_vals.2.2.1, fin4_vals.2.2.2]

/-- C4 (counterexample): on the singular all-zero sample the calibration
operation does NOT surface the failure to its caller — both inversion
attempts fail, the outer `except` handler prints and swallows the error,
and the function returns normally (outcome is `caughtError`, never
`raised`).  The live calibration is unchanged, as the claim says. -/
theorem calibrate_singular_cex :
    ¬ IsUnit (rowlistToMMatrix zeroMatList).det ∧
    (calibrateFromIncoming runningCalibratedState zeroMatList).outcome ≠
      CalibOutcome.raised ∧
    (calibrateFromIncoming runningCalibratedState zeroMatList).outcome =
      CalibOutcome.caughtError ∧
    (calibrateFromIncoming runningCalibratedState zeroMatList).state.calibMatrix =
      runningCalibratedState.calibMatrix := by
  have hdet := zeroMatList_not_invertible
  have hnone : mmInverse (rowlistToMMatrix zeroMatList) = none := by
    rw [mmInverse, if_neg hdet]
  refine ⟨hdet, ?_, ?_, ?_⟩ <;>
    simp [calibrateFromIncoming, hnone]

/-- C4 (amended): for every sample whose matrix is singular, the
calibration operation fails without mutating the live calibration
transform: the error is caught internally (no exception reaches the
caller), `CALIB_MATRIX` is unchanged, and the pending desired target has
still been consumed. -/
theorem calibrate_singular_caught (st : ServerState) (incoming : List ℝ)
    (h : ¬ IsUnit (rowlistToMMatrix incoming).det) :
    (calibrateFromIncoming st incoming).outcome = CalibOutcome.caughtError ∧
    (calibrateFromIncoming st incoming).outcome ≠ CalibOutcome.raised ∧
    (calibrateFromIncoming st incoming).state.calibMatrix = st.calibMatrix ∧
    (calibrateFromIncoming st incoming).state.pendingCalibDesired = none := by
  have hnone : mmInverse (rowlistToMMatrix incoming) = none := by
    rw [mmInverse, if_neg h]
  refine ⟨?_, ?_, ?_, ?_⟩ <;> simp [calibrateFromIncoming, hnone]

/-- C4 (witness): the caught-failure behaviour at the concrete singular
sample. -/
theorem calibrate_singular_caught_witness :
    (calibrateFromIncoming initState zeroMatList).outcome =
      CalibOutcome.caughtError ∧
    (calibrateFromIncoming initState zeroMatList).outcome ≠ CalibOutcome.raised ∧
    (calibrateFromIncoming initState zeroMatList).state.calibMatrix =
      initState.calibMatrix ∧
    (calibrateFromIncoming initState zeroMatList).state.pendingCalibDesired = none :=
  calibrate_singular_caught initState zeroMatList zeroMatList_not_invertible

/-- C8: after `calibrate()` has stored a pending desired pose `D`, feeding
an invertible sample `S` to `calibrateFromIncoming` consumes the pending
target and stores the calibration `C = D * inverse(S)`, which satisfies
`C * S = D` exactly. -/
theorem calibration_round_trip (st : ServerState) (S D : List ℝ)
    (hp : st.pendingCalibDesired = some D)
    (hinv : IsUnit (rowlistToMMatrix S).det) :
    ∃ C, (calibrateFromIncoming st S).state.calibMatrix = some C ∧
      (calibrateFromIncoming st S).state.pendingCalibDesired = none ∧
      (calibrateFromIncoming st S).outcome = CalibOutcome.ok ∧
      rowlistToMMatrix C = rowlistToMMatrix D * (rowlistToMMatrix S)⁻¹ ∧
      rowlistToMMatrix C * rowlistToMMatrix S = rowlistToMMatrix D := by
  have hsome : mmInverse (rowlistToMMatrix S) = some (rowlistToMMatrix S)⁻¹ := by
    rw [mmInverse, if_pos hinv]
  refine ⟨mmatrixToList (rowlistToMMatrix D * (rowlistToMMatrix S)⁻¹), ?_, ?_, ?_, ?_, ?_⟩
  · simp [calibrateFromIncoming, hsome, hp]
  · simp [calibrateFromIncoming, hsome]
  · simp [calibrateFromIncoming, hsome]
  · exact rowlist_roundtrip _
  · rw [rowlist_roundtrip, mul_assoc, Matrix.nonsing_inv_mul _ hinv, mul_one]

/-- C8 (witness): the round trip at the concrete state holding the
identity pose as pending target and receiving the identity sample. -/
theorem calibration_round_trip_witness :
    runningCalibratedState.pendingCalibDesired = some idMatList ∧
    IsUnit (rowlistToMMatrix idMatList).det ∧
    ∃ C, (calibrateFromIncoming runningCalibratedState idMatList).state.calibMatrix =
        some C ∧
      (calibrateFromIncoming runningCalibratedState idMatList).state.pendingCalibDesired =
        none ∧
      (calibrateFromIncoming runningCalibratedState idMatList).outcome =
        CalibOutcome.ok ∧
      rowlistToMMatrix C =
        rowlistToMMatrix idMatList * (rowlistToMMatrix idMatList)⁻¹ ∧
      rowlistToMMatrix C * rowlistToMMatrix idMatList = rowlistToMMatrix idMatList := by
  have hinv : IsUnit (rowlistToMMatrix idMatList).det := by
    rw [idMatList_is_one, Matrix.det_one]
    exact isUnit_one
  exact ⟨rfl, hinv, calibration_round_trip runningCalibratedState idMatList idMatList
    rfl hinv⟩

/-- Negating a quaternion preserves the sum of squares. -/
theorem sumSq_qneg (b : Quat) : sumSq (qneg b) = sumSq b := by
  unfold sumSq qneg
  ring

/-- Dividing a unit quaternion by its norm is the identity. -/
theorem qdivNorm_unit (a : Quat) (ha : sumSq a = 1) : qdivNorm a = a := by
  unfold qdivNorm qlen
  rw [ha, Real.sqrt_one]
  simp

/-- Cauchy–Schwarz: the dot product of two unit quaternions lies in
`[-1, 1]`. -/
theorem abs_qdot_le_one (a b : Quat) (ha : sumSq a = 1) (hb : sumSq b = 1) :
    |qdot a b| ≤ 1 := by
  unfold sumSq at ha hb
  unfold qdot
  rw [abs_le]
  constructor
  · nlinarith [sq_nonneg (a.w + b.w), sq_nonneg (a.x + b.x),
      sq_nonneg (a.y + b.y), sq_nonneg (a.z + b.z)]
  · nlinarith [sq_nonneg (a.w - b.w), sq_nonneg (a.x - b.x),
      sq_nonneg (a.y - b.y), sq_nonneg (a.z - b.z)]

/-- C6: for unit quaternions `a`, `b` and `t ∈ [0,1]`, `_quat_slerp`
satisfies the endpoint contract: `slerp(a,a,t) = a`, `slerp(a,b,0) = a`,
and `slerp(a,b,1) = b` up to sign. -/
theorem slerp_endpoint_contract (a b : Quat) (t : ℝ) (ha : sumSq a = 1)
    (hb : sumSq b = 1) (ht0 : 0 ≤ t) (ht1 : t ≤ 1) :
    quatSlerp a a t = a ∧ quatSlerp a b 0 = a ∧
    (quatSlerp a b 1 = b ∨ quatSlerp a b 1 = qneg b) := by
  refine ⟨?_, ?_, ?_⟩
  · have hself : qdot a a = 1 := ha
    unfold quatSlerp
    simp only [hself]
    norm_num
    show qdivNorm a = a
    exact qdivNorm_unit a ha
  · unfold quatSlerp
    by_cases hneg : qdot a b < 0
    · simp only [if_pos hneg]
      by_cases hlin : -qdot a b > 0.9995
      · rw [if_pos hlin]
        norm_num
        show qdivNorm a = a
        exact qdivNorm_unit a ha
      · rw [if_neg hlin]
        norm_num
    · simp only [if_neg hneg]
      by_cases hlin : qdot a b > 0.9995
      · rw [if_pos hlin]
        norm_num
        show qdivNorm a = a
        exact qdivNorm_unit a ha
      · rw [if_neg hlin]
        norm_num
  · have habs := abs_le.mp (abs_qdot_le_one a b ha hb)
    unfold quatSlerp
    by_cases hneg : qdot a b < 0
    · right
      simp only [if_pos hneg]
      by_cases hlin : -qdot a b > 0.9995
      · rw [if_pos hlin]
        norm_num
        show qdivNorm (qneg b) = qneg b
        exact qdivNorm_unit _ (by rw [sumSq_qneg]; exact hb)
      · rw [if_neg hlin]
        have hle : -qdot a b ≤ 0.9995 := not_lt.mp hlin
        have h0lt : 0 < Real.arccos (-qdot a b) := Real.arccos_pos.mpr (by linarith)
        have hltpi : Real.arccos (-qdot a b) < Real.pi :=
          lt_of_le_of_lt (Real.arccos_le_pi_div_two.mpr (by linarith))
            (by linarith [Real.pi_pos])
        have hsin : Real.sin (Real.arccos (-qdot a b)) ≠ 0 :=
          ne_of_gt (Real.sin_pos_of_pos_of_lt_pi h0lt hltpi)
        have hcos : Real.cos (Real.arccos (-qdot a b)) = -qdot a b :=
          Real.cos_arccos (by linarith) (by linarith)
        simp only [mul_one]
        rw [hcos, mul_div_assoc, div_self hsin, mul_one, sub_self]
        simp
    · left
      simp only [if_neg hneg]
      have hge : 0 ≤ qdot a b := not_lt.mp hneg
      by_cases hlin : qdot a b > 0.9995
      · rw [if_pos hlin]
        norm_num
        show qdivNorm b = b
        exact qdivNorm_unit _ hb
      · rw [if_neg hlin]
        have hle : qdot a b ≤ 0.9995 := not_lt.mp hlin
        have h0lt : 0 < Real.arccos (qdot a b) := Real.arccos_pos.mpr (by linarith)
        have hltpi : Real.arccos (qdot a b) < Real.pi :=
          lt_of_le_of_lt (Real.arccos_le_pi_div_two.mpr hge)
            (by linarith [Real.pi_pos])
        have hsin : Real.sin (Real.arccos (qdot a b)) ≠ 0 :=
          ne_of_gt (Real.sin_pos_of_pos_of_lt_pi h0lt hltpi)
        have hcos : Real.cos (Real.arccos (qdot a b)) = qdot a b :=
          Real.cos_arccos (by linarith) (by linarith)
        simp only [mul_one]
        rw [hcos, mul_div_assoc, div_self hsin, mul_one, sub_self]
        simp

/-- C6 (witness): the endpoint contract at two concrete orthogonal unit
quaternions and `t = 1/2`. -/
theorem slerp_endpoint_contract_witness :
    (sumSq ⟨1, 0, 0, 0⟩ = 1 ∧ sumSq ⟨0, 1, 0, 0⟩ = 1 ∧
      (0 : ℝ) ≤ 1 / 2 ∧ (1 : ℝ) / 2 ≤ 1) ∧
    (quatSlerp ⟨1, 0, 0, 0⟩ ⟨1, 0, 0, 0⟩ (1 / 2) = ⟨1, 0, 0, 0⟩ ∧
     quatSlerp ⟨1, 0, 0, 0⟩ ⟨0, 1, 0, 0⟩ 0 = ⟨1, 0, 0, 0⟩ ∧
     (quatSlerp ⟨1, 0, 0, 0⟩ ⟨0, 1, 0, 0⟩ 1 = ⟨0, 1, 0, 0⟩ ∨
      quatSlerp ⟨1, 0, 0, 0⟩ ⟨0, 1, 0, 0⟩ 1 = qneg ⟨0, 1, 0, 0⟩)) := by
  constructor
  · refine ⟨?_, ?_, ?_, ?_⟩ <;> norm_num [sumSq]
  · exact slerp_endpoint_contract ⟨1, 0, 0, 0⟩ ⟨0, 1, 0, 0⟩ (1 / 2)
      (by norm_num [sumSq]) (by norm_num [sumSq]) (by norm_num) (by norm_num)

/-- Spec-side description of the batch translation (claim C7): the
arithmetic mean of the translations, componentwise. -/
def meanTranslationSpec (mats : List (List ℝ)) : ℝ × ℝ × ℝ :=
  ((mats.map fun m => mget m 3).sum / mats.length,
   (mats.map fun m => mget m 7).sum / mats.length,
   (mats.map fun m => mget m 11).sum / mats.length)

/-- Spec-side description of the sign-corrected quaternion sum (claim C7):
with the first quaternion as the reference, flip each later quaternion
whose dot product with the reference is negative, then sum everything. -/
def signCorrectedSumSpec (qs : List Quat) : Quat :=
  match qs with
  | [] => ⟨0, 0, 0, 0⟩
  | q0 :: rest =>
    qadd q0 ((rest.map fun q => if qdot q q0 < 0 then qneg q else q).foldr qadd ⟨0, 0, 0, 0⟩)

/-- Adding the zero quaternion is the identity. -/
theorem qadd_zero_quat (a : Quat) : qadd a ⟨0, 0, 0, 0⟩ = a := by
  unfold qadd
  simp

/-- Quaternion addition is associative. -/
theorem qadd_assoc (a b c : Quat) : qadd (qadd a b) c = qadd a (qadd b c) := by
  unfold qadd
  simp
  refine ⟨by ring, by ring, by ring, by ring⟩

/-- The source's left fold over the tail equals the spec's map-then-sum
form, for any per-element correction `f`. -/
theorem foldl_qadd_map (f : Quat → Quat) (rest : List Quat) :
    ∀ q0 : Quat, rest.foldl (fun acc q => qadd acc (f q)) q0 =
      qadd q0 ((rest.map f).foldr qadd ⟨0, 0, 0, 0⟩) := by
  induction rest with
  | nil => intro q0; simp [qadd_zero_quat]
  | cons r rs ih =>
    intro q0
    simp only [List.foldl_cons, List.map_cons, List.foldr_cons]
    rw [ih (qadd q0 (f r)), qadd_assoc]

/-- `batchPosSum` accumulates exactly the three componentwise sums. -/
theorem batchPosSum_eq (mats : List (List ℝ)) :
    batchPosSum mats =
      ((mats.map fun m => mget m 3).sum, (mats.map fun m => mget m 7).sum,
       (mats.map fun m => mget m 11).sum) := by
  have key : ∀ acc : ℝ × ℝ × ℝ,
      mats.foldl (fun acc m => (acc.1 + mget m 3, acc.2.1 + mget m 7, acc.2.2 + mget m 11)) acc =
        (acc.1 + (mats.map fun m => mget m 3).sum,
         acc.2.1 + (mats.map fun m => mget m 7).sum,
         acc.2.2 + (mats.map fun m => mget m 11).sum) := by
    induction mats with
    | nil => intro acc; simp
    | cons m ms ih =>
      intro acc
      simp only [List.foldl_cons, List.map_cons, List.sum_cons]
      rw [ih]
      refine Prod.ext (by ring) (Prod.ext (by ring) (by ring))
  unfold batchPosSum
  rw [key (0, 0, 0)]
  simp

/-- The source's quaternion fold equals the spec-side sign-corrected sum. -/
theorem batchQuatSum_eq_spec (qs : List Quat) :
    batchQuatSum qs = signCorrectedSumSpec qs := by
  cases qs with
  | nil => rfl
  | cons q0 rest =>
    unfold batchQuatSum signCorrectedSumSpec
    exact foldl_qadd_map (fun q => if qdot q q0 < 0 then qneg q else q) rest q0

/-- C7: the batch-representative pose of `_server_loop` is the arithmetic
mean of the translations together with the normalized sign-corrected sum
of the quaternions (each quaternion after the first flipped when its dot
with the reference quaternion is negative); and for the batch holding
`q1 = (1,0,0,0)` and `q2 = (-1,0,0,0)` the summed quaternion magnitude
before normalization is `2 > 1.9` — no cancellation. -/
theorem batch_average_shape (mats : List (List ℝ)) (hne : mats ≠ []) :
    serverBatchAvg mats =
      setTrans (quatToMat (qnormalize (signCorrectedSumSpec (mats.map matToQuat))))
        (meanTranslationSpec mats) ∧
    batchQuatSum [⟨1, 0, 0, 0⟩, ⟨-1, 0, 0, 0⟩] = (⟨2, 0, 0, 0⟩ : Quat) ∧
    qlen (batchQuatSum [⟨1, 0, 0, 0⟩, ⟨-1, 0, 0, 0⟩]) > 1.9 := by
  have hsum : batchQuatSum [(⟨1, 0, 0, 0⟩ : Quat), ⟨-1, 0, 0, 0⟩] = ⟨2, 0, 0, 0⟩ := by
    unfold batchQuatSum
    simp [qdot, qneg, qadd]
    norm_num
  refine ⟨?_, hsum, ?_⟩
  · unfold serverBatchAvg meanTranslationSpec
    rw [batchQuatSum_eq_spec, batchPosSum_eq]
  · rw [hsum]
    have h4 : qlen (⟨2, 0, 0, 0⟩ : Quat) = 2 := by
      unfold qlen sumSq
      rw [show (2 : ℝ) * 2 + 0 * 0 + 0 * 0 + 0 * 0 = 2 ^ 2 by norm_num]
      exact Real.sqrt_sq (by norm_num)
    rw [h4]
    norm_num

/-- C7 (witness): the batch shape at the concrete two-element batch of the
identity pose. -/
theorem batch_average_shape_witness :
    ([idMatList, idMatList] : List (List ℝ)) ≠ [] ∧
    serverBatchAvg [idMatList, idMatList] =
      setTrans
        (quatToMat (qnormalize (signCorrectedSumSpec ([idMatList, idMatList].map matToQuat))))
        (meanTranslationSpec [idMatList, idMatList]) := by
  refine ⟨by simp, ?_⟩
  exact (batch_average_shape [idMatList, idMatList] (by simp)).1

/-- `sqrt(4c^2) = 2|c|`, the normalizer used by every extraction branch. -/
theorem sqrt_four_mul_self (c : ℝ) : Real.sqrt (4 * (c * c)) = 2 * |c| := by
  rw [show 4 * (c * c) = (2 * |c|) ^ 2 by rw [mul_pow, sq_abs]; ring]
  exact Real.sqrt_sq (by positivity)

/-- C5: for every unit quaternion `q`, converting to a rotation matrix and
extracting back yields `q` or `-q` exactly (over the reals), across all
four extraction branches of `_mat_to_quat`. -/
theorem matquat_round_trip (q : Quat) (hq : sumSq q = 1) :
    matToQuat (quatToMat q) = q ∨ matToQuat (quatToMat q) = qneg q := by
  obtain ⟨w, x, y, z⟩ := q
  simp only [sumSq] at hq
  unfold matToQuat
  simp only [quatToMat, mget, List.getD_cons_zero, List.getD_cons_succ]
  rw [show 1 - 2 * (y * y + z * z) + (1 - 2 * (x * x + z * z)) + (1 - 2 * (x * x + y * y)) + 1
        = 4 * (w * w) from by linear_combination (-4 : ℝ) * hq,
      show 1 + (1 - 2 * (y * y + z * z)) - (1 - 2 * (x * x + z * z)) - (1 - 2 * (x * x + y * y))
        = 4 * (x * x) from by ring,
      show 1 + (1 - 2 * (x * x + z * z)) - (1 - 2 * (y * y + z * z)) - (1 - 2 * (x * x + y * y))
        = 4 * (y * y) from by ring,
      show 1 + (1 - 2 * (x * x + y * y)) - (1 - 2 * (y * y + z * z)) - (1 - 2 * (x * x + z * z))
        = 4 * (z * z) from by ring,
      sqrt_four_mul_self w, sqrt_four_mul_self x, sqrt_four_mul_self y, sqrt_four_mul_self z]
  by_cases h1 : 1 - 2 * (y * y + z * z) + (1 - 2 * (x * x + z * z)) + (1 - 2 * (x * x + y * y)) > 0
  · rw [if_pos h1]
    have hww : w * w > 1 / 4 := by nlinarith
    have hw0 : w ≠ 0 := by
      intro h
      rw [h] at hww
      norm_num at hww
    rcases hw0.lt_or_lt with hw | hw
    · right
      rw [abs_of_neg hw]
      simp only [qneg, Quat.mk.injEq]
      have hw' : w ≠ 0 := ne_of_lt hw
      refine ⟨?_, ?_, ?_, ?_⟩ <;> (try field_simp) <;> ring
    · left
      rw [abs_of_pos hw]
      simp only [Quat.mk.injEq]
      have hw' : w ≠ 0 := ne_of_gt hw
      refine ⟨?_, ?_, ?_, ?_⟩ <;> (try field_simp) <;> ring
  · rw [if_neg h1]
    by_cases h2 : 1 - 2 * (y * y + z * z) > 1 - 2 * (x * x + z * z) ∧
        1 - 2 * (y * y + z * z) > 1 - 2 * (x * x + y * y)
    · rw [if_pos h2]
      have hxy : x * x > y * y := by linarith [h2.1]
      have hx0 : x ≠ 0 := by
        intro h
        rw [h] at hxy
        nlinarith [mul_self_nonneg y]
      rcases hx0.lt_or_lt with hx | hx
      · right
        rw [abs_of_neg hx]
        simp only [qneg, Quat.mk.injEq]
        have hx' : x ≠ 0 := ne_of_lt hx
        refine ⟨?_, ?_, ?_, ?_⟩ <;> (try field_simp) <;> ring
      · left
        rw [abs_of_pos hx]
        simp only [Quat.mk.injEq]
        have hx' : x ≠ 0 := ne_of_gt hx
        refine ⟨?_, ?_, ?_, ?_⟩ <;> (try field_simp) <;> ring
    · rw [if_neg h2]
      by_cases h3 : 1 - 2 * (x * x + z * z) > 1 - 2 * (x * x + y * y)
      · rw [if_pos h3]
        have hyz : y * y > z * z := by linarith
        have hy0 : y ≠ 0 := by
          intro h
          rw [h] at hyz
          nlinarith [mul_self_nonneg z]
        rcases hy0.lt_or_lt with hy | hy
        · right
          rw [abs_of_neg hy]
          simp only [qneg, Quat.mk.injEq]
          have hy' : y ≠ 0 := ne_of_lt hy
          refine ⟨?_, ?_, ?_, ?_⟩ <;> (try field_simp) <;> ring
        · left
          rw [abs_of_pos hy]
          simp only [Quat.mk.injEq]
          have hy' : y ≠ 0 := ne_of_gt hy
          refine ⟨?_, ?_, ?_, ?_⟩ <;> (try field_simp) <;> ring
      · rw [if_neg h3]
        have hyz : y * y ≤ z * z := by linarith [not_lt.mp h3]
        have htr : x * x + y * y + z * z ≥ 3 / 4 := by nlinarith [not_lt.mp h1]
        have hz0 : z ≠ 0 := by
          intro h
          rw [h] at hyz htr
          have hy0 : y * y ≤ 0 := by linarith [mul_self_nonneg z]
          rcases not_and_or.mp h2 with hc | hc
          · have : ¬(x * x > y * y) := fun hgt => hc (by linarith)
            nlinarith [mul_self_nonneg x, mul_self_nonneg y]
          · have : ¬(x * x > z * z) := fun hgt => hc (by linarith)
            nlinarith [mul_self_nonneg x, mul_self_nonneg y]
        rcases hz0.lt_or_lt with hz | hz
        · right
          rw [abs_of_neg hz]
          simp only [qneg, Quat.mk.injEq]
          have hz' : z ≠ 0 := ne_of_lt hz
          refine ⟨?_, ?_, ?_, ?_⟩ <;> (try field_simp) <;> ring
        · left
          rw [abs_of_pos hz]
          simp only [Quat.mk.injEq]
          have hz' : z ≠ 0 := ne_of_gt hz
          refine ⟨?_, ?_, ?_, ?_⟩ <;> (try field_simp) <;> ring

/-- C5 (witness): the round trip at four concrete unit quaternions, one
per extraction branch (trace-positive, and each diagonal-dominant case). -/
theorem matquat_round_trip_witness :
    (sumSq ⟨1, 0, 0, 0⟩ = 1 ∧
      (matToQuat (quatToMat ⟨1, 0, 0, 0⟩) = ⟨1, 0, 0, 0⟩ ∨
       matToQuat (quatToMat ⟨1, 0, 0, 0⟩) = qneg ⟨1, 0, 0, 0⟩)) ∧
    (sumSq ⟨0, 1, 0, 0⟩ = 1 ∧
      (matToQuat (quatToMat ⟨0, 1, 0, 0⟩) = ⟨0, 1, 0, 0⟩ ∨
       matToQuat (quatToMat ⟨0, 1, 0, 0⟩) = qneg ⟨0, 1, 0, 0⟩)) ∧
    (sumSq ⟨0, 0, 1, 0⟩ = 1 ∧
      (matToQuat (quatToMat ⟨0, 0, 1, 0⟩) = ⟨0, 0, 1, 0⟩ ∨
       matToQuat (quatToMat ⟨0, 0, 1, 0⟩) = qneg ⟨0, 0, 1, 0⟩)) ∧
    (sumSq ⟨0, 0, 0, 1⟩ = 1 ∧
      (matToQuat (quatToMat ⟨0, 0, 0, 1⟩) = ⟨0, 0, 0, 1⟩ ∨
       matToQuat (quatToMat ⟨0, 0, 0, 1⟩) = qneg ⟨0, 0, 0, 1⟩)) := by
  refine ⟨⟨?_, ?_⟩, ⟨?_, ?_⟩, ⟨?_, ?_⟩, ⟨?_, ?_⟩⟩
  · norm_num [sumSq]
  · exact matquat_round_trip ⟨1, 0, 0, 0⟩ (by norm_num [sumSq])
  · norm_num [sumSq]
  · exact matquat_round_trip ⟨0, 1, 0, 0⟩ (by norm_num [sumSq])
  · norm_num [sumSq]
  · exact matquat_round_trip ⟨0, 0, 1, 0⟩ (by norm_num [sumSq])
  · norm_num [sumSq]
  · exact matquat_round_trip ⟨0, 0, 0, 1⟩ (by norm_num [sumSq])

/-- `max(-1, min(1, d))` is the identity on `[-1, 1]`. -/
theorem clamp_of_abs_le (d : ℝ) (h : |d| ≤ 1) : max (-1) (min 1 d) = d := by
  have h1 := abs_le.mp h
  rw [min_eq_right h1.2, max_eq_right h1.1]

/-- Dot product against a negated quaternion flips sign. -/
theorem qdot_qneg_right (a b : Quat) : qdot a (qneg b) = -qdot a b := by
  unfold qdot qneg
  ring

/-- Dot of `a` with a linear combination `s0*a + s1*b`. -/
theorem qdot_mix (a b : Quat) (s0 s1 : ℝ) :
    qdot a ⟨s0 * a.w + s1 * b.w, s0 * a.x + s1 * b.x,
            s0 * a.y + s1 * b.y, s0 * a.z + s1 * b.z⟩ =
      s0 * sumSq a + s1 * qdot a b := by
  unfold qdot sumSq
  ring

/-- Squared norm of a linear combination `s0*a + s1*b`. -/
theorem sumSq_mix (a b : Quat) (s0 s1 : ℝ) :
    sumSq ⟨s0 * a.w + s1 * b.w, s0 * a.x + s1 * b.x,
           s0 * a.y + s1 * b.y, s0 * a.z + s1 * b.z⟩ =
      s0 ^ 2 * sumSq a + 2 * s0 * s1 * qdot a b + s1 ^ 2 * sumSq b := by
  unfold qdot sumSq
  ring

/-- The slerp coefficients preserve the unit norm: the scalar identity
behind `s0^2 + 2 s0 s1 p + s1^2 = 1`. -/
theorem slerp_norm_key (p c sn s : ℝ) (hs : s ≠ 0) (hs2 : s ^ 2 = 1 - p ^ 2)
    (hpyth : sn ^ 2 + c ^ 2 = 1) :
    (c - p * sn / s) ^ 2 + 2 * (c - p * sn / s) * (sn / s) * p + (sn / s) ^ 2 = 1 := by
  have h1 : (c - p * sn / s) ^ 2 + 2 * (c - p * sn / s) * (sn / s) * p + (sn / s) ^ 2
      = c ^ 2 + (1 - p ^ 2) * (sn ^ 2 / s ^ 2) := by ring
  have h2 : s ^ 2 * (sn ^ 2 / s ^ 2) = sn ^ 2 := by field_simp
  rw [h1, ← hs2, h2]
  linarith

/-- In the closed-form spherical branch (`|dot| ≤ 0.9995`), slerp of unit
quaternions makes an exact angle `θ0·t` with its start and stays unit. -/
theorem slerp_spherical_props (a b : Quat) (t : ℝ) (ha : sumSq a = 1)
    (hb : sumSq b = 1) (hle : |qdot a b| ≤ 0.9995) :
    qdot a (quatSlerp a b t) = Real.cos (Real.arccos |qdot a b| * t) ∧
    sumSq (quatSlerp a b t) = 1 := by
  have hdp1 : |qdot a b| ≤ 1 := abs_qdot_le_one a b ha hb
  have hdp0 : 0 ≤ |qdot a b| := abs_nonneg _
  have hcosd : Real.cos (Real.arccos |qdot a b|) = |qdot a b| :=
    Real.cos_arccos (by linarith) hdp1
  have hθpos : 0 < Real.arccos |qdot a b| := Real.arccos_pos.mpr (by linarith)
  have hθpi : Real.arccos |qdot a b| < Real.pi :=
    lt_of_le_of_lt (Real.arccos_le_pi_div_two.mpr hdp0) (by linarith [Real.pi_pos])
  have hsin0 : Real.sin (Real.arccos |qdot a b|) ≠ 0 :=
    ne_of_gt (Real.sin_pos_of_pos_of_lt_pi hθpos hθpi)
  have hs2 : Real.sin (Real.arccos |qdot a b|) ^ 2 = 1 - |qdot a b| ^ 2 := by
    rw [Real.sin_sq, hcosd]
  unfold quatSlerp
  by_cases hneg : qdot a b < 0
  · have habs : |qdot a b| = -qdot a b := abs_of_neg hneg
    simp only [if_pos hneg]
    have hlin : ¬ (-qdot a b > 0.9995) := by
      rw [← habs]
      exact not_lt.mpr hle
    rw [if_neg hlin]
    rw [habs] at hcosd hsin0 hs2 ⊢
    constructor
    · rw [qdot_mix a (qneg b), ha, qdot_qneg_right]
      ring
    · rw [sumSq_mix a (qneg b), ha, sumSq_qneg, hb, qdot_qneg_right]
      linear_combination slerp_norm_key (-qdot a b)
        (Real.cos (Real.arccos (-qdot a b) * t)) (Real.sin (Real.arccos (-qdot a b) * t))
        (Real.sin (Real.arccos (-qdot a b))) hsin0 hs2
        (Real.sin_sq_add_cos_sq (Real.arccos (-qdot a b) * t))
  · have habs : |qdot a b| = qdot a b := abs_of_nonneg (not_lt.mp hneg)
    simp only [if_neg hneg]
    have hlin : ¬ (qdot a b > 0.9995) := by
      rw [← habs]
      exact not_lt.mpr hle
    rw [if_neg hlin]
    rw [habs] at hcosd hsin0 hs2 ⊢
    constructor
    · rw [qdot_mix a b, ha]
      ring
    · rw [sumSq_mix a b, ha, hb]
      linear_combination slerp_norm_key (qdot a b)
        (Real.cos (Real.arccos (qdot a b) * t)) (Real.sin (Real.arccos (qdot a b) * t))
        (Real.sin (Real.arccos (qdot a b))) hsin0 hs2
        (Real.sin_sq_add_cos_sq (Real.arccos (qdot a b) * t))

/-- The zero guard is inert on a unit quaternion. -/
theorem qnormalize_unit_eq (r : Quat) (hr : sumSq r = 1) : qnormalize r = r := by
  have h1 : qlen r = 1 := by
    unfold qlen
    rw [hr, Real.sqrt_one]
  unfold qnormalize
  rw [if_neg (by rw [h1]; norm_num)]
  exact qdivNorm_unit r hr

/-- The angle computed by `_interp_loop` between `(1,0,0,0)` and
`(0,1,0,0)` is `π`. -/
theorem quatAngle_wx_pi : quatAngle ⟨1, 0, 0, 0⟩ ⟨0, 1, 0, 0⟩ = Real.pi := by
  have hdot : qdot ⟨1, 0, 0, 0⟩ ⟨0, 1, 0, 0⟩ = 0 := by
    unfold qdot
    norm_num
  unfold quatAngle
  rw [hdot]
  norm_num [Real.arccos_zero]
  ring

/-- `math.radians(90)` is `π/2`. -/
theorem maxRadOf_ninety : maxRadOf 90 = Real.pi / 2 := by
  unfold maxRadOf
  ring

/-- C3 (counterexample): with `maxRotationDelta = 90°` and rotation alpha
`1/4`, the pair `(1,0,0,0)`, `(0,1,0,0)` is separated by `π > π/2`, yet the
effective slerp fraction is `min(1/4, 1/2) = 1/4`, NOT strictly less than
the configured alpha — refuting the claim's strict inequality. -/
theorem rotation_clamp_not_strict_cex :
    quatAngle ⟨1, 0, 0, 0⟩ ⟨0, 1, 0, 0⟩ > maxRadOf 90 ∧
    ¬ (effRotT ⟨1, 0, 0, 0⟩ ⟨0, 1, 0, 0⟩ (1 / 4) 90 < 1 / 4) := by
  have hgt : Real.pi > Real.pi / 2 := by linarith [Real.pi_pos]
  constructor
  · rw [quatAngle_wx_pi, maxRadOf_ninety]
    exact hgt
  · unfold effRotT
    rw [quatAngle_wx_pi, maxRadOf_ninety]
    rw [if_pos ⟨by nlinarith [Real.pi_gt_three], hgt⟩]
    have hfrac : Real.pi / 2 / Real.pi = 1 / 2 := by
      field_simp
      ring
    rw [hfrac]
    norm_num

/-- C3 (amended): when the angular separation exceeds both the `1e-6`
floor and the configured cap, the effective slerp fraction is
`min(rotAlpha, maxRad/θ)` — at most the configured alpha, and strictly
less exactly when `maxRad/θ < rotAlpha`; and whenever the closed-form
spherical branch applies (hemisphere-corrected dot ≤ 0.9995), the per-tick
angular change is exactly `eff·θ` and never exceeds the cap. -/
theorem rotation_clamp_amended (a b : Quat) (aRot maxRotDeg : ℝ)
    (ha : sumSq a = 1) (hb : sumSq b = 1) (haRot : 0 ≤ aRot)
    (hmaxpos : 0 < maxRadOf maxRotDeg)
    (h1 : quatAngle a b > 1e-6) (h2 : quatAngle a b > maxRadOf maxRotDeg) :
    effRotT a b aRot maxRotDeg = min aRot (maxRadOf maxRotDeg / quatAngle a b) ∧
    effRotT a b aRot maxRotDeg ≤ aRot ∧
    (maxRadOf maxRotDeg / quatAngle a b < aRot → effRotT a b aRot maxRotDeg < aRot) ∧
    (|qdot a b| ≤ 0.9995 →
      quatAngle a (qnormalize (quatSlerp a b (effRotT a b aRot maxRotDeg))) =
        effRotT a b aRot maxRotDeg * quatAngle a b ∧
      quatAngle a (qnormalize (quatSlerp a b (effRotT a b aRot maxRotDeg))) ≤
        maxRadOf maxRotDeg) := by
  have heff : effRotT a b aRot maxRotDeg =
      min aRot (maxRadOf maxRotDeg / quatAngle a b) := by
    unfold effRotT
    rw [if_pos ⟨h1, h2⟩]
  have hangle_pos : 0 < quatAngle a b := lt_trans (by norm_num) h1
  have hfrac_lt1 : maxRadOf maxRotDeg / quatAngle a b < 1 :=
    (div_lt_one hangle_pos).mpr h2
  have ht0 : 0 ≤ effRotT a b aRot maxRotDeg := by
    rw [heff]
    exact le_min haRot (div_nonneg hmaxpos.le hangle_pos.le)
  have ht1 : effRotT a b aRot maxRotDeg < 1 := by
    rw [heff]
    exact lt_of_le_of_lt (min_le_right _ _) hfrac_lt1
  have htm : effRotT a b aRot maxRotDeg ≤ maxRadOf maxRotDeg / quatAngle a b := by
    rw [heff]
    exact min_le_right _ _
  refine ⟨heff, by rw [heff]; exact min_le_left _ _, ?_, ?_⟩
  · intro hfa
    rw [heff, min_eq_right hfa.le]
    exact hfa
  · intro hle
    have habs1 : |qdot a b| ≤ 1 := abs_qdot_le_one a b ha hb
    obtain ⟨hdot, hunit⟩ :=
      slerp_spherical_props a b (effRotT a b aRot maxRotDeg) ha hb hle
    have hqn := qnormalize_unit_eq _ hunit
    have hθ0nn : 0 ≤ Real.arccos |qdot a b| := Real.arccos_nonneg _
    have hθ0le : Real.arccos |qdot a b| ≤ Real.pi / 2 :=
      Real.arccos_le_pi_div_two.mpr (abs_nonneg _)
    have hθnn : 0 ≤ Real.arccos |qdot a b| * effRotT a b aRot maxRotDeg :=
      mul_nonneg hθ0nn ht0
    have hθle : Real.arccos |qdot a b| * effRotT a b aRot maxRotDeg ≤ Real.pi / 2 :=
      le_trans (mul_le_of_le_one_right hθ0nn ht1.le) hθ0le
    have hcos_nn : 0 ≤ Real.cos (Real.arccos |qdot a b| * effRotT a b aRot maxRotDeg) :=
      Real.cos_nonneg_of_mem_Icc ⟨by linarith [Real.pi_pos], hθle⟩
    have hmain : quatAngle a (qnormalize (quatSlerp a b (effRotT a b aRot maxRotDeg))) =
        effRotT a b aRot maxRotDeg * quatAngle a b := by
      rw [hqn]
      unfold quatAngle
      rw [hdot]
      rw [clamp_of_abs_le _ (by rw [abs_of_nonneg hcos_nn]; exact Real.cos_le_one _)]
      rw [abs_of_nonneg hcos_nn]
      rw [Real.arccos_cos hθnn (le_trans hθle (by linarith [Real.pi_pos]))]
      rw [clamp_of_abs_le _ habs1]
      ring
    refine ⟨hmain, ?_⟩
    rw [hmain]
    exact (le_div_iff₀ hangle_pos).mp htm

/-- C3 (witness): the clamp behaviour at the concrete configuration
`rotAlpha = 1/4`, `maxRotationDelta = 90°`, for the orthogonal pair
`(1,0,0,0)`, `(0,1,0,0)` separated by `π`. -/
theorem rotation_clamp_amended_witness :
    (sumSq ⟨1, 0, 0, 0⟩ = 1 ∧ sumSq ⟨0, 1, 0, 0⟩ = 1 ∧ (0 : ℝ) ≤ 1 / 4 ∧
      0 < maxRadOf 90 ∧ quatAngle ⟨1, 0, 0, 0⟩ ⟨0, 1, 0, 0⟩ > 1e-6 ∧
      quatAngle ⟨1, 0, 0, 0⟩ ⟨0, 1, 0, 0⟩ > maxRadOf 90 ∧
      |qdot ⟨1, 0, 0, 0⟩ ⟨0, 1, 0, 0⟩| ≤ 0.9995) ∧
    (effRotT ⟨1, 0, 0, 0⟩ ⟨0, 1, 0, 0⟩ (1 / 4) 90 ≤ 1 / 4 ∧
      quatAngle ⟨1, 0, 0, 0⟩
          (qnormalize (quatSlerp ⟨1, 0, 0, 0⟩ ⟨0, 1, 0, 0⟩
            (effRotT ⟨1, 0, 0, 0⟩ ⟨0, 1, 0, 0⟩ (1 / 4) 90))) ≤ maxRadOf 90) := by
  have hu1 : sumSq (⟨1, 0, 0, 0⟩ : Quat) = 1 := by norm_num [sumSq]
  have hu2 : sumSq (⟨0, 1, 0, 0⟩ : Quat) = 1 := by norm_num [sumSq]
  have hmaxpos : 0 < maxRadOf 90 := by
    rw [maxRadOf_ninety]
    linarith [Real.pi_pos]
  have hag : quatAngle ⟨1, 0, 0, 0⟩ ⟨0, 1, 0, 0⟩ > 1e-6 := by
    rw [quatAngle_wx_pi]
    nlinarith [Real.pi_gt_three]
  have hag2 : quatAngle ⟨1, 0, 0, 0⟩ ⟨0, 1, 0, 0⟩ > maxRadOf 90 := by
    rw [quatAngle_wx_pi, maxRadOf_ninety]
    linarith [Real.pi_pos]
  have hdle : |qdot ⟨1, 0, 0, 0⟩ ⟨0, 1, 0, 0⟩| ≤ 0.9995 := by
    have : qdot (⟨1, 0, 0, 0⟩ : Quat) ⟨0, 1, 0, 0⟩ = 0 := by
      unfold qdot
      norm_num
    rw [this]
    norm_num
  have h := rotation_clamp_amended ⟨1, 0, 0, 0⟩ ⟨0, 1, 0, 0⟩ (1 / 4) 90 hu1 hu2
    (by norm_num) hmaxpos hag hag2
  exact ⟨⟨hu1, hu2, by norm_num, hmaxpos, hag, hag2, hdle⟩,
    h.2.1, (h.2.2.2 hdle).2⟩

end

end MagiCAM
